import Mathlib

/-!
Verification of the project/session indexing core of the task-viewer
repository.  The Go source is shallowly embedded: directories are modelled
as lists of entries, file reads as abstract read results, `time.Time`
values as natural numbers (with `After` becoming `<` on `Nat`), and Go's
unstable `sort.Slice` as insertion sort with the corresponding total
preorder.  Fallible operations return `Except` or `Option`.
-/

namespace TaskViewer

/-! ## Data model (mirrors the Go structs) -/

/-- One session record from `sessions-index.json` (Go `SessionEntry`). -/
structure SessionEntry where
  SessionID : String
  FullPath : String
  FileMtime : Int
  FirstPrompt : String
  Summary : String
  MessageCount : Nat
  Created : Nat
  Modified : Nat
  GitBranch : String
  ProjectPath : String
  IsSidechain : Bool
deriving DecidableEq

/-- The parsed structure of `sessions-index.json` (Go `sessionsIndex`). -/
structure SessionsIndex where
  Version : Nat
  Entries : List SessionEntry
deriving DecidableEq

/-- Result of reading and JSON-parsing a project's `sessions-index.json`:
the read may fail, the parse may fail, or a typed index is produced. -/
inductive IndexRead where
  | readErr : IndexRead
  | parseErr : IndexRead
  | ok : SessionsIndex → IndexRead
deriving DecidableEq

/-- Errors surfaced by `loadProject` / `ListProjects`: an I/O error from
`os.ReadFile`/`os.ReadDir`, a `json.Unmarshal` error, or `os.ErrNotExist`
returned explicitly for an index with zero entries. -/
inductive LoadError where
  | ioErr : LoadError
  | parseErr : LoadError
  | notExist : LoadError
deriving DecidableEq

/-- A project with its sessions (Go `Project`). -/
structure Project where
  Path : String
  Name : String
  Shortname : String
  Org : String
  DirName : String
  Sessions : List SessionEntry
  SessionCount : Nat
  LastModified : Nat
deriving DecidableEq

/-- Condensed view of a project for listing (Go `ProjectSummary`). -/
structure ProjectSummary where
  Name : String
  Path : String
  DirName : String
  Shortname : String
  Org : String
  BaseRepo : String
  SessionCount : Nat
  LastModified : Nat
  LastBranch : String
  LastSummary : String
deriving DecidableEq

/-- A cluster of related projects under one base repo (Go `ProjectGroup`). -/
structure ProjectGroup where
  BaseRepo : String
  Org : String
  Projects : List ProjectSummary
  TotalSessions : Nat
  LastModified : Nat
deriving DecidableEq

/-- Minimal project info for session lookups (Go `projectInfo`). -/
structure ProjInfo where
  name : String
  path : String
  summary : String
  firstPrompt : String
deriving DecidableEq

/-- A task list with live tasks (Go `ActiveTaskList`). -/
structure ActiveTaskList where
  SessionID : String
  TaskCount : Nat
  TaskDir : String
  ProjectName : String
  ProjectPath : String
  Summary : String
  FirstPrompt : String
deriving DecidableEq

/-- A directory entry as returned by `os.ReadDir`. -/
structure TDirEnt where
  name : String
  isDir : Bool
deriving DecidableEq

/-- The observable state of the live-tasks directory `~/.claude/tasks`:
`root` is the result of listing it (`none` = `os.ReadDir` error), and
`sub s` is the result of listing the per-session subdirectory `s`. -/
structure TasksFS where
  dir : String
  root : Option (List TDirEnt)
  sub : String → Option (List String)

/-- The observable state of the projects directory `~/.claude/projects`:
`dirents` is the result of listing it, `index d` the result of reading and
parsing `d/sessions-index.json`, and `files d` the names of files present
directly inside project directory `d` (for the `.jsonl` stat probe). -/
structure ProjectsFS where
  dirents : Option (List TDirEnt)
  index : String → IndexRead
  files : String → List String

/-! ## String helpers (Go `path/filepath` and `strings`, Unix separator) -/

/-- Split a character list at every occurrence of `sep`, keeping empty
pieces, as Go's `strings.Split` does for a one-character separator. -/
def splitChar (sep : Char) : List Char → List (List Char)
  | [] => [[]]
  | c :: cs =>
    match splitChar sep cs with
    | [] => [[]]
    | h :: t => if c = sep then [] :: h :: t else (c :: h) :: t

/-- Go's `filepath.Base` for Unix paths: `""` gives `"."`, a path of only
separators gives `"/"`, otherwise the last component after dropping
trailing separators. -/
def filepathBase (path : String) : String :=
  if path = "" then "."
  else
    let revStripped := path.data.reverse.dropWhile (fun c => c = '/')
    let last := (revStripped.takeWhile (fun c => c ≠ '/')).reverse
    if last = [] then "/" else String.mk last

/-- `strings.Split(path, "/")` as a list of strings. -/
def pathParts (path : String) : List String :=
  (splitChar '/' path.data).map (fun l => String.mk l)

/-- The loop inside `extractProjectInfo`: the component following the
first `github.com` component that has a follower, else `""`. -/
def findOrg : List String → String
  | [] => ""
  | p :: rest =>
    if p = "github.com" then
      match rest with
      | [] => ""
      | q :: _ => q
    else findOrg rest

/-- Go `extractProjectInfo`: derive `(name, shortname, org)` from a
project path. -/
def extractProjectInfo (path : String) : String × String × String :=
  let name := filepathBase path
  if name = "" ∨ name = "." then ("", "", "")
  else (name, name, findOrg (pathParts path))

/-- Go `extractProjectName`: last non-empty `-`-separated piece of a
sanitized directory name, or the whole name if all pieces are empty. -/
def extractProjectName (dirName : String) : String :=
  match (splitChar '-' dirName.data).reverse.find? (fun p => !p.isEmpty) with
  | some p => String.mk p
  | none => dirName

/-- Go `strings.HasSuffix`. -/
def hasSuffixStr (s suf : String) : Bool :=
  List.isSuffixOf suf.data s.data

/-! ## Sorting relations used by the various `sort.Slice` calls -/

/-- Candidate ordering for base-repo matching: longer names first. -/
def strLenGE (a b : String) : Prop := b.length ≤ a.length

instance : DecidableRel strLenGE := fun a b => Nat.decLe _ _

instance : IsTotal String strLenGE := ⟨fun a b => Nat.le_total b.length a.length⟩

instance : IsTrans String strLenGE := ⟨fun _ _ _ h₁ h₂ => Nat.le_trans h₂ h₁⟩

/-- Session ordering: most recently modified first. -/
def sessionLE (a b : SessionEntry) : Prop := b.Modified ≤ a.Modified

instance : DecidableRel sessionLE := fun a b => Nat.decLe _ _

instance : IsTotal SessionEntry sessionLE := ⟨fun a b => Nat.le_total b.Modified a.Modified⟩

instance : IsTrans SessionEntry sessionLE := ⟨fun _ _ _ h₁ h₂ => Nat.le_trans h₂ h₁⟩

/-- Project ordering: most recently modified first. -/
def projectLE (a b : Project) : Prop := b.LastModified ≤ a.LastModified

instance : DecidableRel projectLE := fun a b => Nat.decLe _ _

instance : IsTotal Project projectLE := ⟨fun a b => Nat.le_total b.LastModified a.LastModified⟩

instance : IsTrans Project projectLE := ⟨fun _ _ _ h₁ h₂ => Nat.le_trans h₂ h₁⟩

/-- Summary ordering: most recently modified first. -/
def summaryLE (a b : ProjectSummary) : Prop := b.LastModified ≤ a.LastModified

instance : DecidableRel summaryLE := fun a b => Nat.decLe _ _

instance : IsTotal ProjectSummary summaryLE := ⟨fun a b => Nat.le_total b.LastModified a.LastModified⟩

instance : IsTrans ProjectSummary summaryLE := ⟨fun _ _ _ h₁ h₂ => Nat.le_trans h₂ h₁⟩

/-- Group ordering: most recently modified first. -/
def groupLE (a b : ProjectGroup) : Prop := b.LastModified ≤ a.LastModified

instance : DecidableRel groupLE := fun a b => Nat.decLe _ _

instance : IsTotal ProjectGroup groupLE := ⟨fun a b => Nat.le_total b.LastModified a.LastModified⟩

instance : IsTrans ProjectGroup groupLE := ⟨fun _ _ _ h₁ h₂ => Nat.le_trans h₂ h₁⟩

/-! ## Base-repo computation (Go `computeBaseRepos`) -/

/-- The per-organization name list `orgRepos[org]` built by the first loop
of `computeBaseRepos`: names of summaries whose `Org` equals `org`, in
input order. -/
def orgNames (summaries : List ProjectSummary) (org : String) : List String :=
  (summaries.filter (fun s => s.Org == org)).map (fun s => s.Name)

/-- The organization's candidate names sorted by length, longest first. -/
def sortedOrgNames (summaries : List ProjectSummary) (org : String) :
    List String :=
  List.insertionSort strLenGE (orgNames summaries org)

/-- The candidate test inside the matching loop: skip the project itself,
then `strings.HasPrefix(name, cand + "-")`. -/
def worktreeCandB (cand name : String) : Bool :=
  cand != name && List.isPrefixOf (cand ++ "-").data name.data

/-- The matching loop of `computeBaseRepos`: first candidate that passes
`worktreeCandB`, defaulting to the project's own name. -/
def findBaseRepo (cands : List String) (name : String) : String :=
  match cands.find? (fun c => worktreeCandB c name) with
  | some c => c
  | none => name

/-- Base repo assigned to a project with the given name and organization,
relative to the full summary list. -/
def assignBaseRepo (summaries : List ProjectSummary) (name org : String) :
    String :=
  if org = "" then name
  else findBaseRepo (sortedOrgNames summaries org) name

/-- Go `computeBaseRepos`: fill in the `BaseRepo` field of every summary. -/
def computeBaseRepos (summaries : List ProjectSummary) :
    List ProjectSummary :=
  summaries.map (fun s =>
    { s with BaseRepo := assignBaseRepo summaries s.Name s.Org })

/-- Worktree-match relation actually implemented by the code: the name
starts with `cand ++ "-"` (the remaining suffix may be empty). -/
def WorktreeMatch (cand name : String) : Prop :=
  cand ≠ name ∧ ∃ suf : String, name = cand ++ "-" ++ suf

/-- Worktree-match relation in the words of the specification: the name
is `cand ++ "-" ++ suf` for some NON-empty suffix `suf`. -/
def SpecWorktreeMatch (cand name : String) : Prop :=
  cand ≠ name ∧ ∃ suf : String, suf ≠ "" ∧ name = cand ++ "-" ++ suf

/-- The relationship claim C1 asserts between an input summary `s` and its
output counterpart `t` (using the spec's non-empty-suffix match). -/
def C1Pred (l : List ProjectSummary) (s t : ProjectSummary) : Prop :=
  t.Name = s.Name ∧ t.Org = s.Org ∧
  (s.Org = "" → t.BaseRepo = s.Name) ∧
  (s.Org ≠ "" →
    ((∀ c ∈ orgNames l s.Org, ¬ SpecWorktreeMatch c s.Name) ∧
      t.BaseRepo = s.Name) ∨
    (t.BaseRepo ∈ orgNames l s.Org ∧ SpecWorktreeMatch t.BaseRepo s.Name ∧
      ∀ c ∈ orgNames l s.Org, SpecWorktreeMatch c s.Name →
        c.length ≤ t.BaseRepo.length))

/-- Claim C1 as stated, formalized over a summary list. -/
def C1Claim (l : List ProjectSummary) : Prop :=
  List.Forall₂ (C1Pred l) l (computeBaseRepos l)

/-- Same relationship with the match the code implements (suffix may be
empty): the amended claim. -/
def C1AmendedPred (l : List ProjectSummary) (s t : ProjectSummary) : Prop :=
  t.Name = s.Name ∧ t.Org = s.Org ∧
  (s.Org = "" → t.BaseRepo = s.Name) ∧
  (s.Org ≠ "" →
    ((∀ c ∈ orgNames l s.Org, ¬ WorktreeMatch c s.Name) ∧
      t.BaseRepo = s.Name) ∨
    (t.BaseRepo ∈ orgNames l s.Org ∧ WorktreeMatch t.BaseRepo s.Name ∧
      ∀ c ∈ orgNames l s.Org, WorktreeMatch c s.Name →
        c.length ≤ t.BaseRepo.length))

/-! ## Project catalog (Go `loadProject`, `ListProjects`, summaries) -/

/-- Go `loadProject`: read and parse `sessions-index.json`, reject an
empty index with `os.ErrNotExist`, sort sessions most-recent-first, and
derive the project metadata from the most recent entry. -/
def loadProject (pfs : ProjectsFS) (dirName : String) :
    Except LoadError Project :=
  match pfs.index dirName with
  | .readErr => .error .ioErr
  | .parseErr => .error .parseErr
  | .ok idx =>
    match List.insertionSort sessionLE idx.Entries with
    | [] => .error .notExist
    | e :: rest =>
      let info := extractProjectInfo e.ProjectPath
      .ok { Path := e.ProjectPath
            Name := if info.1 = "" then dirName else info.1
            Shortname := info.2.1
            Org := info.2.2
            DirName := dirName
            Sessions := e :: rest
            SessionCount := idx.Entries.length
            LastModified := e.Modified }

/-- Go `GetProject` simply delegates to `loadProject`. -/
def GetProject (pfs : ProjectsFS) (dirName : String) :
    Except LoadError Project :=
  loadProject pfs dirName

/-- Go `ListProjects`: enumerate project directories, load each one,
silently skipping failures, and sort by `LastModified` descending. -/
def ListProjects (pfs : ProjectsFS) : Except LoadError (List Project) :=
  match pfs.dirents with
  | none => .error .ioErr
  | some ds =>
    .ok (List.insertionSort projectLE
      (ds.filterMap (fun d =>
        if d.isDir then (loadProject pfs d.name).toOption else none)))

/-- The summary projection inside Go `ListProjectSummaries`. -/
def summarize (p : Project) : ProjectSummary :=
  { Name := p.Name
    Path := p.Path
    DirName := p.DirName
    Shortname := p.Shortname
    Org := p.Org
    BaseRepo := ""
    SessionCount := p.SessionCount
    LastModified := p.LastModified
    LastBranch := match p.Sessions with | [] => "" | e :: _ => e.GitBranch
    LastSummary := match p.Sessions with | [] => "" | e :: _ => e.Summary }

/-- Go `ListProjectSummaries`: map projects through the summary
projection, then compute base repos over the whole set. -/
def ListProjectSummaries (pfs : ProjectsFS) :
    Except LoadError (List ProjectSummary) :=
  (ListProjects pfs).map (fun ps => computeBaseRepos (ps.map summarize))

/-! ## Grouping (Go `ListProjectGroups`) -/

/-- The grouping key `s.Org + "/" + s.BaseRepo`. -/
def groupKey (s : ProjectSummary) : String :=
  s.Org ++ "/" ++ s.BaseRepo

/-- A fresh group seeded from one summary. -/
def newGroup (s : ProjectSummary) : ProjectGroup :=
  { BaseRepo := s.BaseRepo
    Org := s.Org
    Projects := [s]
    TotalSessions := s.SessionCount
    LastModified := s.LastModified }

/-- Fold one more summary into an existing group: append the member, add
its session count, and keep the later modification time. -/
def updateGroup (g : ProjectGroup) (s : ProjectSummary) : ProjectGroup :=
  { g with
    Projects := g.Projects ++ [s]
    TotalSessions := g.TotalSessions + s.SessionCount
    LastModified :=
      if g.LastModified < s.LastModified then s.LastModified
      else g.LastModified }

/-- Insert one summary into the key-indexed group map (Go's
`groupMap[key]` update-or-create). -/
def insertGroup : List (String × ProjectGroup) → ProjectSummary →
    List (String × ProjectGroup)
  | [], s => [(groupKey s, newGroup s)]
  | kv :: rest, s =>
    if kv.1 = groupKey s then (kv.1, updateGroup kv.2 s) :: rest
    else kv :: insertGroup rest s

/-- The group map accumulated over all summaries. -/
def groupMapOf (summaries : List ProjectSummary) :
    List (String × ProjectGroup) :=
  summaries.foldl insertGroup []

/-- Sort one group-map entry's members by `LastModified` descending. -/
def msortKV (kv : String × ProjectGroup) : ProjectGroup :=
  { kv.2 with Projects := List.insertionSort summaryLE kv.2.Projects }

/-- The grouping phase of Go `ListProjectGroups`: build the key-indexed
map, sort each group's members by `LastModified` descending, and sort the
groups by `LastModified` descending. -/
def groupProjects (summaries : List ProjectSummary) : List ProjectGroup :=
  List.insertionSort groupLE ((groupMapOf summaries).map msortKV)

/-- Go `ListProjectGroups`. -/
def ListProjectGroups (pfs : ProjectsFS) :
    Except LoadError (List ProjectGroup) :=
  (ListProjectSummaries pfs).map groupProjects

/-! ## Live tasks (Go `HasTasks`, `GetTaskCount`, `ListActiveTaskLists`) -/

/-- The counting loop of Go `GetTaskCount`. -/
def countJson (es : List String) : Nat :=
  es.foldl (fun c e => if hasSuffixStr e ".json" then c + 1 else c) 0

/-- Go `GetTaskCount`: number of `.json` files in the session's task
directory, `0` when the directory cannot be read. -/
def GetTaskCount (tfs : TasksFS) (sessionID : String) : Nat :=
  match tfs.sub sessionID with
  | none => 0
  | some es => countJson es

/-- Go `HasTasks`: whether the session's task directory holds any `.json`
file, `false` when the directory cannot be read. -/
def HasTasks (tfs : TasksFS) (sessionID : String) : Bool :=
  match tfs.sub sessionID with
  | none => false
  | some es => es.any (fun e => hasSuffixStr e ".json")

/-- The project directories considered by the session-map and `.jsonl`
scans: listed entries that are directories. -/
def dirsOf (pfs : ProjectsFS) : List TDirEnt :=
  match pfs.dirents with
  | none => []
  | some ds => ds.filter (fun d => d.isDir)

/-- The (sessionID, projectInfo) pairs inserted into the map by Go
`buildSessionProjectMap`, in insertion order. -/
def sessionPairs (pfs : ProjectsFS) : List (String × ProjInfo) :=
  (dirsOf pfs).flatMap (fun d =>
    match pfs.index d.name with
    | .ok idx =>
      idx.Entries.map (fun e =>
        (e.SessionID,
          { name := extractProjectName d.name
            path := d.name
            summary := e.Summary
            firstPrompt := e.FirstPrompt }))
    | _ => [])

/-- Lookup in the session→project map; a later insertion for the same
session identifier overwrites an earlier one, hence the reversal. -/
def sessionLookup (pfs : ProjectsFS) (sessionID : String) : Option ProjInfo :=
  ((sessionPairs pfs).reverse.find? (fun pr => pr.1 == sessionID)).map
    (fun pr => pr.2)

/-- Go `findProjectByJSONL`: probe each project directory for a file named
`sessionID + ".jsonl"` and derive the project name from the directory. -/
def findProjectByJSONL (pfs : ProjectsFS) (sessionID : String) :
    Option ProjInfo :=
  ((dirsOf pfs).find? (fun d =>
      (pfs.files d.name).contains (sessionID ++ ".jsonl"))).map
    (fun d =>
      { name := extractProjectName d.name
        path := d.name
        summary := ""
        firstPrompt := "" })

/-- The per-entry body of the `ListActiveTaskLists` loop: a list entry for
a task-bearing session subdirectory, with two-tier project context. -/
def activeFor (tfs : TasksFS) (pfs : ProjectsFS) (e : TDirEnt) :
    Option ActiveTaskList :=
  if e.isDir then
    let c := GetTaskCount tfs e.name
    if 0 < c then
      let base : ActiveTaskList :=
        { SessionID := e.name
          TaskCount := c
          TaskDir := tfs.dir ++ "/" ++ e.name
          ProjectName := ""
          ProjectPath := ""
          Summary := ""
          FirstPrompt := "" }
      some (match sessionLookup pfs e.name with
        | some pr =>
          { base with
            ProjectName := pr.name
            ProjectPath := pr.path
            Summary := pr.summary
            FirstPrompt := pr.firstPrompt }
        | none =>
          match findProjectByJSONL pfs e.name with
          | some pr =>
            { base with
              ProjectName := pr.name
              ProjectPath := pr.path
              Summary := pr.summary
              FirstPrompt := pr.firstPrompt }
          | none => base)
    else none
  else none

/-- Go `ListActiveTaskLists`: fails only when the live-tasks directory
itself cannot be listed; otherwise one entry per task-bearing session
subdirectory. -/
def ListActiveTaskLists (tfs : TasksFS) (pfs : ProjectsFS) :
    Option (List ActiveTaskList) :=
  match tfs.root with
  | none => none
  | some es => some (es.filterMap (activeFor tfs pfs))

/-! ## Concrete inputs used by examples and witnesses -/

/-- A summary with the given name and organization and neutral data. -/
def mkSummary (n o : String) : ProjectSummary :=
  { Name := n
    Path := ""
    DirName := ""
    Shortname := ""
    Org := o
    BaseRepo := ""
    SessionCount := 0
    LastModified := 0
    LastBranch := ""
    LastSummary := "" }

/-- Counterexample input for claim C1: a sibling named `repo-` whose
suffix after the matching `repo` prefix is empty. -/
def ceC1 : List ProjectSummary := [mkSummary "repo-" "o", mkSummary "repo" "o"]

/-- The four-project organization of claim C2. -/
def demoC2 : List ProjectSummary :=
  [mkSummary "repo" "o", mkSummary "repo-client" "o",
   mkSummary "repo-client-wt" "o", mkSummary "other" "o"]

/-- A permuted copy of `demoC2` for the order-independence witness. -/
def demoC2Perm : List ProjectSummary :=
  [mkSummary "repo-client-wt" "o", mkSummary "other" "o",
   mkSummary "repo" "o", mkSummary "repo-client" "o"]

/-- Two session entries with out-of-order modification times. -/
def entryA : SessionEntry :=
  { SessionID := "a"
    FullPath := ""
    FileMtime := 0
    FirstPrompt := "p1"
    Summary := "s1"
    MessageCount := 1
    Created := 1
    Modified := 1
    GitBranch := "main"
    ProjectPath := "/home/u/src/github.com/org1/repoX"
    IsSidechain := false }

/-- The more recently modified of the two example entries. -/
def entryB : SessionEntry :=
  { SessionID := "b"
    FullPath := ""
    FileMtime := 0
    FirstPrompt := "p2"
    Summary := "s2"
    MessageCount := 2
    Created := 2
    Modified := 5
    GitBranch := "dev"
    ProjectPath := "/home/u/src/github.com/org1/repoX"
    IsSidechain := false }

/-- An example projects directory carrying one valid project directory
`d` whose index holds `entryA` and `entryB`. -/
def pfsEx : ProjectsFS :=
  { dirents := some [{ name := "d", isDir := true }]
    index := fun dn => if dn = "d" then .ok { Version := 1, Entries := [entryA, entryB] } else .readErr
    files := fun _ => [] }

/-- A projects directory whose only directory `d` has a missing index. -/
def pfsMissing : ProjectsFS :=
  { dirents := some [{ name := "d", isDir := true }]
    index := fun _ => .readErr
    files := fun _ => [] }

/-- The same projects directory with a parsed but zero-entry index. -/
def pfsEmptyIdx : ProjectsFS :=
  { dirents := some [{ name := "d", isDir := true }]
    index := fun dn => if dn = "d" then .ok { Version := 1, Entries := [] } else .readErr
    files := fun _ => [] }

/-- A projects directory with no usable context at all. -/
def pfsBlank : ProjectsFS :=
  { dirents := some []
    index := fun _ => .readErr
    files := fun _ => [] }

/-- An example live-tasks directory: session `s1` has one task file and a
lock file, session `s2` only a non-task file, and `nd` is not a
directory. -/
def tfsEx : TasksFS :=
  { dir := "tasks"
    root := some [{ name := "s1", isDir := true },
                  { name := "s2", isDir := true },
                  { name := "nd", isDir := false }]
    sub := fun s =>
      if s = "s1" then some ["t1.json", "t.lock"]
      else if s = "s2" then some ["x.txt"]
      else none }

/-- The project that `loadProject pfsEx "d"` produces: sessions sorted
most-recent-first, metadata derived from the most recent entry. -/
def projEx : Project :=
  { Path := "/home/u/src/github.com/org1/repoX"
    Name := "repoX"
    Shortname := "repoX"
    Org := "org1"
    DirName := "d"
    Sessions := [entryB, entryA]
    SessionCount := 2
    LastModified := 5 }

/-- Invariant of one entry of the group map: a non-empty member list all
of whose members share the stored key, that key agreeing with the
group's own organization and base repo, the session total being the sum
over members, and the modification time being the members' maximum. -/
def GoodKV (kv : String × ProjectGroup) : Prop :=
  kv.2.Projects ≠ [] ∧
  (∀ s ∈ kv.2.Projects, groupKey s = kv.1) ∧
  kv.1 = kv.2.Org ++ "/" ++ kv.2.BaseRepo ∧
  kv.2.TotalSessions = (kv.2.Projects.map (fun s => s.SessionCount)).sum ∧
  (∃ s ∈ kv.2.Projects, kv.2.LastModified = s.LastModified) ∧
  (∀ s ∈ kv.2.Projects, s.LastModified ≤ kv.2.LastModified)

/-- A three-project, two-organization input for grouping examples. -/
def demoGroupIn : List ProjectSummary :=
  [{ mkSummary "repo" "o" with
      BaseRepo := "repo", SessionCount := 2, LastModified := 3 },
   { mkSummary "repo-wt" "o" with
      BaseRepo := "repo", SessionCount := 1, LastModified := 7 },
   { mkSummary "lib" "p" with
      BaseRepo := "lib", SessionCount := 4, LastModified := 5 }]

/-! ## Helper lemmas -/

/-- The Go counting loop equals `countP` shifted by the accumulator. -/
theorem foldl_count (p : String → Bool) :
    ∀ (es : List String) (c : Nat),
      es.foldl (fun c e => if p e then c + 1 else c) c = c + es.countP p := by
  intro es
  induction es with
  | nil => intro c; simp
  | cons e es ih =>
    intro c
    simp only [List.foldl_cons, List.countP_cons, ih]
    by_cases h : p e <;> simp [h] <;> omega

/-- `countJson` counts exactly the `.json`-suffixed entries. -/
theorem countJson_eq_countP (es : List String) :
    countJson es = es.countP (fun e => hasSuffixStr e ".json") := by
  simpa [countJson] using foldl_count (fun e => hasSuffixStr e ".json") es 0

/-! ## Claim theorems: task counting -/

/-- Claim C9: `GetTaskCount` returns the number of `.json` files in the
session's live-tasks subdirectory, and `0` (not an error) when that
subdirectory does not exist or cannot be read. -/
theorem getTaskCount_spec (tfs : TasksFS) (sessionID : String) :
    (tfs.sub sessionID = none → GetTaskCount tfs sessionID = 0) ∧
    (∀ es, tfs.sub sessionID = some es →
      GetTaskCount tfs sessionID =
        (es.filter (fun e => hasSuffixStr e ".json")).length) := by
  constructor
  · intro h
    simp [GetTaskCount, h]
  · intro es h
    simp [GetTaskCount, h, countJson_eq_countP,
      List.countP_eq_length_filter]

/-- Witness for C9 on the example live-tasks directory. -/
theorem getTaskCount_spec_witness :
    (tfsEx.sub "zz" = none → GetTaskCount tfsEx "zz" = 0) ∧
    (tfsEx.sub "zz" = none) ∧ (GetTaskCount tfsEx "zz" = 0) ∧
    (tfsEx.sub "s1" = some ["t1.json", "t.lock"]) ∧
    (GetTaskCount tfsEx "s1" =
      ((["t1.json", "t.lock"] : List String).filter
        (fun e => hasSuffixStr e ".json")).length) :=
  ⟨(getTaskCount_spec tfsEx "zz").1, by decide, by decide, by decide,
    (getTaskCount_spec tfsEx "s1").2 ["t1.json", "t.lock"] (by decide)⟩

/-- Claim C10: `HasTasks` holds exactly when `GetTaskCount` is positive,
for every state of the live-tasks directory. -/
theorem hasTasks_iff_taskCount_pos (tfs : TasksFS) (sessionID : String) :
    HasTasks tfs sessionID = true ↔ 0 < GetTaskCount tfs sessionID := by
  unfold HasTasks GetTaskCount
  match h : tfs.sub sessionID with
  | none => simp
  | some es =>
    simp only [countJson_eq_countP]
    rw [List.any_eq_true]
    exact (List.countP_pos).symm

/-- Witness for C10 at concrete sessions of the example directory. -/
theorem hasTasks_iff_taskCount_pos_witness :
    (HasTasks tfsEx "s1" = true ↔ 0 < GetTaskCount tfsEx "s1") ∧
    (HasTasks tfsEx "s2" = true ↔ 0 < GetTaskCount tfsEx "s2") ∧
    (HasTasks tfsEx "zz" = true ↔ 0 < GetTaskCount tfsEx "zz") :=
  ⟨hasTasks_iff_taskCount_pos tfsEx "s1",
   hasTasks_iff_taskCount_pos tfsEx "s2",
   hasTasks_iff_taskCount_pos tfsEx "zz"⟩

/-! ## Claim theorems: the C2 scenario -/

/-- Claim C2 evaluated on the code: for the organization containing
exactly `repo`, `repo-client`, `repo-client-wt` and `other`, the code
assigns `BaseRepo(repo-client) = repo` — because `repo-client` starts
with `repo-` — while the claim (and the comment above the Go function)
expect `repo-client` to remain its own base repo.  The other three
assignments agree with the claim. -/
theorem computeBaseRepos_c2_eval :
    (computeBaseRepos demoC2).map (fun s => (s.Name, s.BaseRepo)) =
      [("repo", "repo"), ("repo-client", "repo"),
       ("repo-client-wt", "repo-client"), ("other", "other")] ∧
    (computeBaseRepos demoC2Perm).map (fun s => (s.Name, s.BaseRepo)) =
      [("repo-client-wt", "repo-client"), ("other", "other"),
       ("repo", "repo"), ("repo-client", "repo")] := by
  constructor <;> decide

/-! ## Claim theorems: path-derived project info -/

/-- If no component equals `github.com`, the org loop yields `""`. -/
theorem findOrg_eq_empty (parts : List String)
    (h : ∀ p ∈ parts, p ≠ "github.com") : findOrg parts = "" := by
  induction parts with
  | nil => rfl
  | cons p rest ih =>
    have hp : p ≠ "github.com" := h p (List.mem_cons_self p rest)
    simp only [findOrg, if_neg hp]
    exact ih (fun q hq => h q (List.mem_cons_of_mem p hq))

/-- Counterexample for claim C7: at the filesystem root `"/"` the code
returns `("/", "/", "")`, not the all-empty triple that the claim
predicts for "a path with no final component". -/
theorem extractProjectInfo_root_cex :
    extractProjectInfo "/" ≠ ("", "", "") ∧
    extractProjectInfo "/" = ("/", "/", "") := by
  constructor <;> decide

/-- Claim C7, amended: name and shortname always agree; the stated
examples hold; the empty path yields the all-empty triple; but the
filesystem root yields `("/", "/", "")` (the `filepath.Base` of `"/"` is
`"/"`, which the emptiness guard does not catch); and a path none of
whose components is `github.com` gets an empty org. -/
theorem extractProjectInfo_spec :
    (∀ path, (extractProjectInfo path).2.1 = (extractProjectInfo path).1) ∧
    extractProjectInfo "/home/u/src/github.com/org1/repoX" =
      ("repoX", "repoX", "org1") ∧
    extractProjectInfo "" = ("", "", "") ∧
    extractProjectInfo "/" = ("/", "/", "") ∧
    (∀ path, (∀ p ∈ pathParts path, p ≠ "github.com") →
      (extractProjectInfo path).2.2 = "") := by
  refine ⟨?_, by decide, by decide, by decide, ?_⟩
  · intro path
    unfold extractProjectInfo
    by_cases h : filepathBase path = "" ∨ filepathBase path = "." <;>
      simp [h]
  · intro path h
    unfold extractProjectInfo
    by_cases hb : filepathBase path = "" ∨ filepathBase path = "." <;>
      simp [hb, findOrg_eq_empty (pathParts path) h]

/-- Witness for C7: the org-empty clause applied at a concrete path. -/
theorem extractProjectInfo_spec_witness :
    (∀ p ∈ pathParts "/a/b", p ≠ "github.com") ∧
    (extractProjectInfo "/a/b").2.2 = "" :=
  ⟨by decide, extractProjectInfo_spec.2.2.2.2 "/a/b" (by decide)⟩

/-! ## Base-repo matching lemmas -/

/-- A string whose length is zero is empty. -/
theorem string_eq_empty_of_length {s : String} (h : s.length = 0) :
    s = "" := by
  apply String.ext
  exact List.length_eq_zero.mp h

/-- The boolean candidate test decides the worktree-match relation the
code implements. -/
theorem worktreeCandB_iff (c n : String) :
    worktreeCandB c n = true ↔ WorktreeMatch c n := by
  unfold worktreeCandB WorktreeMatch
  rw [Bool.and_eq_true, bne_iff_ne, List.isPrefixOf_iff_prefix]
  constructor
  · rintro ⟨hne, t, ht⟩
    refine ⟨hne, String.mk t, ?_⟩
    apply String.ext
    rw [String.data_append, ← ht]
  · rintro ⟨hne, suf, hsuf⟩
    refine ⟨hne, suf.data, ?_⟩
    rw [hsuf]
    exact (String.data_append (c ++ "-") suf).symm

/-- Two equal-length candidates matching the same name are equal: both
`c ++ "-"` strings are prefixes of the name with equal lengths. -/
theorem worktree_match_unique {c₁ c₂ n : String}
    (h₁ : WorktreeMatch c₁ n) (h₂ : WorktreeMatch c₂ n)
    (hl : c₁.length = c₂.length) : c₁ = c₂ := by
  obtain ⟨-, s₁, e₁⟩ := h₁
  obtain ⟨-, s₂, e₂⟩ := h₂
  have p₁ : (c₁ ++ "-").data <+: n.data := by
    rw [e₁, String.data_append]; exact List.prefix_append _ _
  have p₂ : (c₂ ++ "-").data <+: n.data := by
    rw [e₂, String.data_append]; exact List.prefix_append _ _
  have hlen : (c₁ ++ "-").data.length = (c₂ ++ "-").data.length := by
    show (c₁ ++ "-").length = (c₂ ++ "-").length
    rw [String.length_append, String.length_append, hl]
  have heq : (c₁ ++ "-").data = (c₂ ++ "-").data :=
    (List.prefix_of_prefix_length_le p₁ p₂ (Nat.le_of_eq hlen)).eq_of_length
      hlen
  rw [String.data_append, String.data_append] at heq
  exact String.ext (List.append_cancel_right heq)

/-- On a list sorted longest-first, `find?` returns a member satisfying
the predicate whose length dominates every satisfying member. -/
theorem find?_sorted_max {P : String → Bool} :
    ∀ {l : List String}, List.Pairwise strLenGE l → ∀ {c : String},
      l.find? P = some c →
      c ∈ l ∧ P c = true ∧ ∀ x ∈ l, P x = true → x.length ≤ c.length := by
  intro l
  induction l with
  | nil => intro _ c h; simp at h
  | cons a l ih =>
    intro hp c hfind
    have ha : ∀ b ∈ l, strLenGE a b := (List.pairwise_cons.mp hp).1
    have hl : List.Pairwise strLenGE l := (List.pairwise_cons.mp hp).2
    by_cases hPa : P a = true
    · rw [List.find?_cons_of_pos l hPa] at hfind
      obtain rfl : a = c := by injection hfind
      refine ⟨List.mem_cons_self a l, hPa, ?_⟩
      intro x hx _
      rcases List.mem_cons.mp hx with rfl | hx
      · exact Nat.le_refl _
      · exact ha x hx
    · rw [List.find?_cons_of_neg l hPa] at hfind
      obtain ⟨hmem, hPc, hmax⟩ := ih hl hfind
      refine ⟨List.mem_cons_of_mem a hmem, hPc, ?_⟩
      intro x hx hPx
      rcases List.mem_cons.mp hx with rfl | hx
      · exact absurd hPx hPa
      · exact hmax x hx hPx

/-- For a predicate whose equal-length witnesses coincide, `find?` over
sorted-longest-first lists is invariant under permutation. -/
theorem find?_perm_sorted {P : String → Bool}
    (hP : ∀ c₁ c₂, P c₁ = true → P c₂ = true → c₁.length = c₂.length →
      c₁ = c₂)
    {l₁ l₂ : List String} (hperm : List.Perm l₁ l₂)
    (h₁ : List.Pairwise strLenGE l₁) (h₂ : List.Pairwise strLenGE l₂) :
    l₁.find? P = l₂.find? P := by
  match e₁ : l₁.find? P, e₂ : l₂.find? P with
  | none, none => rfl
  | none, some c =>
    exact absurd (List.find?_some e₂)
      (List.find?_eq_none.mp e₁ c
        (hperm.mem_iff.mpr (List.mem_of_find?_eq_some e₂)))
  | some c, none =>
    exact absurd (List.find?_some e₁)
      (List.find?_eq_none.mp e₂ c
        (hperm.mem_iff.mp (List.mem_of_find?_eq_some e₁)))
  | some c₁, some c₂ =>
    obtain ⟨m₁, hPc₁, hmax₁⟩ := find?_sorted_max h₁ e₁
    obtain ⟨m₂, hPc₂, hmax₂⟩ := find?_sorted_max h₂ e₂
    have hle₁ : c₁.length ≤ c₂.length :=
      hmax₂ c₁ (hperm.mem_iff.mp m₁) hPc₁
    have hle₂ : c₂.length ≤ c₁.length :=
      hmax₁ c₂ (hperm.mem_iff.mpr m₂) hPc₂
    rw [hP c₁ c₂ hPc₁ hPc₂ (Nat.le_antisymm hle₁ hle₂)]

/-- The organization's candidate list is permuted when the summary list
is permuted. -/
theorem orgNames_perm {l₁ l₂ : List ProjectSummary}
    (h : List.Perm l₁ l₂) (org : String) :
    List.Perm (orgNames l₁ org) (orgNames l₂ org) :=
  (h.filter _).map _

/-- Base-repo assignment depends only on the multiset of summaries. -/
theorem assignBaseRepo_perm {l₁ l₂ : List ProjectSummary}
    (h : List.Perm l₁ l₂) (name org : String) :
    assignBaseRepo l₁ name org = assignBaseRepo l₂ name org := by
  unfold assignBaseRepo
  by_cases ho : org = ""
  · simp [ho]
  · rw [if_neg ho, if_neg ho]
    unfold findBaseRepo
    have hperm : List.Perm (sortedOrgNames l₁ org) (sortedOrgNames l₂ org) :=
      ((List.perm_insertionSort strLenGE (orgNames l₁ org)).trans
        (orgNames_perm h org)).trans
        (List.perm_insertionSort strLenGE (orgNames l₂ org)).symm
    have hfind :
        (sortedOrgNames l₁ org).find? (fun c => worktreeCandB c name) =
        (sortedOrgNames l₂ org).find? (fun c => worktreeCandB c name) := by
      refine find?_perm_sorted ?_ hperm
        (List.sorted_insertionSort strLenGE (orgNames l₁ org))
        (List.sorted_insertionSort strLenGE (orgNames l₂ org))
      intro c₁ c₂ hc₁ hc₂ hlen
      exact worktree_match_unique ((worktreeCandB_iff c₁ name).mp hc₁)
        ((worktreeCandB_iff c₂ name).mp hc₂) hlen
    rw [hfind]

/-- Every output summary keeps its name and organization and carries the
assignment computed from the whole list. -/
theorem mem_computeBaseRepos {l : List ProjectSummary} {t : ProjectSummary}
    (h : t ∈ computeBaseRepos l) :
    t.BaseRepo = assignBaseRepo l t.Name t.Org := by
  obtain ⟨s, -, rfl⟩ := List.mem_map.mp h
  rfl

/-! ## Claim theorems: base-repo assignment -/

/-- Claim C3: `computeBaseRepos` assigns the same `BaseRepo` to each
project, identified by name and organization, for any permutation of the
input summary list — directory-listing order does not matter, even in the
presence of equal-length candidates (two distinct equal-length candidates
can never both match one name, since both would be the same prefix). -/
theorem computeBaseRepos_order_independent
    {l₁ l₂ : List ProjectSummary} (hperm : List.Perm l₁ l₂) :
    ∀ s₁ ∈ computeBaseRepos l₁, ∀ s₂ ∈ computeBaseRepos l₂,
      s₁.Name = s₂.Name → s₁.Org = s₂.Org → s₁.BaseRepo = s₂.BaseRepo := by
  intro s₁ h₁ s₂ h₂ hname horg
  rw [mem_computeBaseRepos h₁, mem_computeBaseRepos h₂, hname, horg]
  exact assignBaseRepo_perm hperm s₂.Name s₂.Org

/-- Witness for C3 on a permuted copy of the C2 organization, which
contains the equal-length unrelated sibling `other`. -/
theorem computeBaseRepos_order_independent_witness :
    List.Perm demoC2 demoC2Perm ∧
    { mkSummary "repo-client" "o" with BaseRepo := "repo" } ∈
      computeBaseRepos demoC2 ∧
    { mkSummary "repo-client" "o" with BaseRepo := "repo" } ∈
      computeBaseRepos demoC2Perm ∧
    ({ mkSummary "repo-client" "o" with BaseRepo := "repo" }
        : ProjectSummary).BaseRepo =
      ({ mkSummary "repo-client" "o" with BaseRepo := "repo" }
        : ProjectSummary).BaseRepo :=
  ⟨by decide, by decide, by decide,
    @computeBaseRepos_order_independent demoC2 demoC2Perm (by decide)
      { mkSummary "repo-client" "o" with BaseRepo := "repo" } (by decide)
      { mkSummary "repo-client" "o" with BaseRepo := "repo" } (by decide)
      rfl rfl⟩

/-- Counterexample for claim C1 as stated: with siblings `repo-` and
`repo` in one organization, the claim's non-empty-suffix matching rule
makes `repo-` its own base repo, but the code's `strings.HasPrefix`
test accepts the empty suffix and assigns `BaseRepo(repo-) = repo`. -/
theorem c1_claim_cex : ¬ C1Claim ceC1 := by
  intro h
  rw [C1Claim,
    show computeBaseRepos ceC1 =
      [{ mkSummary "repo-" "o" with BaseRepo := "repo" },
       { mkSummary "repo" "o" with BaseRepo := "repo" }] from by decide]
    at h
  obtain ⟨hpred, -⟩ := List.forall₂_cons.mp h
  have horg : (mkSummary "repo-" "o").Org ≠ "" := by decide
  rcases hpred.2.2.2 horg with ⟨-, hbase⟩ | ⟨-, hmatch, -⟩
  · exact absurd hbase (by decide)
  · obtain ⟨-, suf, hsuf, heq⟩ := hmatch
    have hlen := congrArg String.length heq
    rw [String.length_append, String.length_append] at hlen
    have : suf.length = 0 := by
      have hnum : (5 : Nat) = 4 + 1 + suf.length := hlen
      omega
    exact hsuf (string_eq_empty_of_length this)

/-- Claim C1, amended: as stated except that the matching rule is the one
the code implements — the project's name starts with `C ++ "-"`, the
remaining suffix being allowed to be empty.  The chosen candidate is a
sibling of maximal length among matching candidates (ties cannot occur),
and a project with no matching sibling or an empty organization keeps its
own name. -/
theorem computeBaseRepos_assignment (l : List ProjectSummary) :
    List.Forall₂ (C1AmendedPred l) l (computeBaseRepos l) := by
  rw [computeBaseRepos, List.forall₂_map_right_iff]
  rw [List.forall₂_same]
  intro s hs
  refine ⟨rfl, rfl, ?_, ?_⟩
  · intro ho
    simp [assignBaseRepo, ho]
  · intro ho
    simp only [assignBaseRepo, if_neg ho]
    have hmem_iff : ∀ c : String,
        c ∈ sortedOrgNames l s.Org ↔ c ∈ orgNames l s.Org :=
      fun c => (List.perm_insertionSort strLenGE (orgNames l s.Org)).mem_iff
    match e : (sortedOrgNames l s.Org).find?
        (fun c => worktreeCandB c s.Name) with
    | none =>
      left
      refine ⟨?_, by simp [findBaseRepo, e]⟩
      intro c hc hmatch
      exact absurd ((worktreeCandB_iff c s.Name).mpr hmatch)
        (List.find?_eq_none.mp e c ((hmem_iff c).mpr hc))
    | some c =>
      right
      obtain ⟨hmem, hPc, hmax⟩ :=
        find?_sorted_max (List.sorted_insertionSort strLenGE _) e
      have hbase : findBaseRepo (sortedOrgNames l s.Org) s.Name = c := by
        simp [findBaseRepo, e]
      rw [hbase]
      refine ⟨(hmem_iff c).mp hmem, (worktreeCandB_iff c s.Name).mp hPc, ?_⟩
      intro x hx hxmatch
      exact hmax x ((hmem_iff x).mpr hx)
        ((worktreeCandB_iff x s.Name).mpr hxmatch)

/-- Witness for the amended C1 at the C2 organization. -/
theorem computeBaseRepos_assignment_witness :
    List.Forall₂ (C1AmendedPred demoC2) demoC2 (computeBaseRepos demoC2) :=
  computeBaseRepos_assignment demoC2

/-! ## Catalog lemmas -/

/-- Inversion for a successful `loadProject`: the index parsed, the
sessions are the sorted entries, and `LastModified` is the head entry's
modification time. -/
theorem loadProject_ok {pfs : ProjectsFS} {dn : String} {p : Project}
    (h : loadProject pfs dn = .ok p) :
    ∃ idx e rest, pfs.index dn = .ok idx ∧
      List.insertionSort sessionLE idx.Entries = e :: rest ∧
      p.Sessions = e :: rest ∧ p.LastModified = e.Modified := by
  unfold loadProject at h
  match hidx : pfs.index dn with
  | .readErr => simp only [hidx] at h; exact absurd h (by simp)
  | .parseErr => simp only [hidx] at h; exact absurd h (by simp)
  | .ok idx =>
    simp only [hidx] at h
    match hsort : List.insertionSort sessionLE idx.Entries with
    | [] => simp only [hsort] at h; exact absurd h (by simp)
    | e :: rest =>
      simp only [hsort, Except.ok.injEq] at h
      exact ⟨idx, e, rest, rfl, hsort, by rw [← h], by rw [← h]⟩

/-- The session-side properties of any successfully loaded project. -/
theorem loadProject_props {pfs : ProjectsFS} {dn : String} {p : Project}
    (h : loadProject pfs dn = .ok p) :
    List.Pairwise sessionLE p.Sessions ∧
    (∃ e ∈ p.Sessions, p.LastModified = e.Modified) ∧
    (∀ e ∈ p.Sessions, e.Modified ≤ p.LastModified) ∧
    (∀ e rest, p.Sessions = e :: rest → p.LastModified = e.Modified) := by
  obtain ⟨idx, e, rest, -, hsort, hps, hLM⟩ := loadProject_ok h
  have hpair : List.Pairwise sessionLE p.Sessions := by
    rw [hps, ← hsort]
    exact List.sorted_insertionSort sessionLE idx.Entries
  refine ⟨hpair, ⟨e, by rw [hps]; exact List.mem_cons_self e rest, hLM⟩,
    ?_, ?_⟩
  · intro x hx
    rw [hps] at hx
    rcases List.mem_cons.mp hx with rfl | hx
    · exact Nat.le_of_eq hLM.symm
    · have := (List.pairwise_cons.mp (hps ▸ hpair)).1 x hx
      rw [hLM]
      exact this
  · intro e' rest' he'
    rw [hps] at he'
    injection he' with h1 _
    rw [hLM, h1]

/-- Inversion for a successful `ListProjects`: the result is the sorted
list of the projects that loaded, and each member loaded successfully. -/
theorem listProjects_ok {pfs : ProjectsFS} {ps : List Project}
    (h : ListProjects pfs = .ok ps) :
    List.Pairwise projectLE ps ∧
    ∀ p ∈ ps, ∃ dn, loadProject pfs dn = .ok p := by
  unfold ListProjects at h
  match hd : pfs.dirents with
  | none => rw [hd] at h; exact absurd h (by simp)
  | some ds =>
    rw [hd] at h
    simp only [Except.ok.injEq] at h
    constructor
    · rw [← h]
      exact List.sorted_insertionSort projectLE _
    · intro p hp
      rw [← h] at hp
      have hp' := (List.perm_insertionSort projectLE _).mem_iff.mp hp
      obtain ⟨d, -, hfd⟩ := List.mem_filterMap.mp hp'
      by_cases hdir : d.isDir
      · rw [if_pos hdir] at hfd
        refine ⟨d.name, ?_⟩
        match hload : loadProject pfs d.name with
        | .ok q =>
          rw [hload] at hfd
          simp only [Except.toOption] at hfd
          injection hfd with hq
          rw [hq]
        | .error er =>
          rw [hload] at hfd
          exact absurd hfd (by simp [Except.toOption])
      · rw [if_neg hdir] at hfd
        exact absurd hfd (by simp)

/-! ## Claim theorems: catalog ordering -/

/-- Claim C4: sessions of every returned project are sorted
non-increasing by modification time, `LastModified` is the maximum (the
first entry after sorting), and `ListProjects` output is sorted
non-increasing by `LastModified`. -/
theorem catalog_sorted (pfs : ProjectsFS) :
    (∀ dn p, loadProject pfs dn = .ok p →
      List.Pairwise sessionLE p.Sessions ∧
      (∃ e ∈ p.Sessions, p.LastModified = e.Modified) ∧
      (∀ e ∈ p.Sessions, e.Modified ≤ p.LastModified) ∧
      (∀ e rest, p.Sessions = e :: rest → p.LastModified = e.Modified)) ∧
    (∀ ps, ListProjects pfs = .ok ps →
      List.Pairwise projectLE ps ∧
      ∀ p ∈ ps, List.Pairwise sessionLE p.Sessions ∧
        (∃ e ∈ p.Sessions, p.LastModified = e.Modified) ∧
        (∀ e ∈ p.Sessions, e.Modified ≤ p.LastModified)) := by
  constructor
  · intro dn p h
    exact loadProject_props h
  · intro ps h
    obtain ⟨hsorted, hmem⟩ := listProjects_ok h
    refine ⟨hsorted, ?_⟩
    intro p hp
    obtain ⟨dn, hload⟩ := hmem p hp
    obtain ⟨h1, h2, h3, -⟩ := loadProject_props hload
    exact ⟨h1, h2, h3⟩

/-- Witness for C4 on the example catalog: the out-of-order index is
returned sorted with `LastModified = 5`. -/
theorem catalog_sorted_witness :
    loadProject pfsEx "d" = .ok projEx ∧
    ListProjects pfsEx = .ok [projEx] ∧
    (List.Pairwise sessionLE projEx.Sessions ∧
      (∃ e ∈ projEx.Sessions, projEx.LastModified = e.Modified) ∧
      (∀ e ∈ projEx.Sessions, e.Modified ≤ projEx.LastModified) ∧
      (∀ e rest, projEx.Sessions = e :: rest →
        projEx.LastModified = e.Modified)) ∧
    List.Pairwise projectLE [projEx] :=
  ⟨rfl, rfl,
    (catalog_sorted pfsEx).1 "d" projEx rfl,
    ((catalog_sorted pfsEx).2 [projEx] rfl).1⟩

/-- `loadProject` depends only on the index read for its directory. -/
theorem loadProject_congr {pfs₁ pfs₂ : ProjectsFS} {dn : String}
    (h : pfs₁.index dn = pfs₂.index dn) :
    loadProject pfs₁ dn = loadProject pfs₂ dn := by
  unfold loadProject
  rw [h]

/-! ## Claim theorems: zero-entry indexes -/

/-- Claim C8: a parsed index with zero entries makes `loadProject` (and
`GetProject`) fail with the NotFound-style `os.ErrNotExist`; a directory
with such an index is treated by `ListProjects` exactly like one whose
index is missing; and `ListProjects` never returns a project with an
empty session list. -/
theorem emptyIndex_notFound :
    (∀ pfs dn idx, pfs.index dn = .ok idx → idx.Entries = [] →
      loadProject pfs dn = .error .notExist ∧
      GetProject pfs dn = .error .notExist) ∧
    (∀ pfs₁ pfs₂ : ProjectsFS, ∀ dn v,
      pfs₁.dirents = pfs₂.dirents →
      (∀ d, d ≠ dn → pfs₁.index d = pfs₂.index d) →
      pfs₁.index dn = .readErr →
      pfs₂.index dn = .ok { Version := v, Entries := [] } →
      ListProjects pfs₁ = ListProjects pfs₂) ∧
    (∀ pfs ps, ListProjects pfs = .ok ps → ∀ p ∈ ps, p.Sessions ≠ []) := by
  have hempty : ∀ pfs : ProjectsFS, ∀ dn idx, pfs.index dn = .ok idx →
      idx.Entries = [] → loadProject pfs dn = .error .notExist := by
    intro pfs dn idx hidx he
    unfold loadProject
    simp [hidx, he]
  refine ⟨fun pfs dn idx hidx he =>
    ⟨hempty pfs dn idx hidx he, hempty pfs dn idx hidx he⟩, ?_, ?_⟩
  · intro pfs₁ pfs₂ dn v hdir hrest h₁ h₂
    unfold ListProjects
    rw [hdir]
    match hd : pfs₂.dirents with
    | none => rfl
    | some ds =>
      have hcongr : ∀ d ∈ ds,
          (if d.isDir then (loadProject pfs₁ d.name).toOption else none) =
          (if d.isDir then (loadProject pfs₂ d.name).toOption else none) := by
        intro d _
        by_cases hdn : d.name = dn
        · have e₁ : loadProject pfs₁ d.name = .error .ioErr := by
            unfold loadProject
            rw [hdn, h₁]
          have e₂ : loadProject pfs₂ d.name = .error .notExist := by
            rw [hdn]
            exact hempty pfs₂ dn { Version := v, Entries := [] } h₂ rfl
          rw [e₁, e₂]
          rfl
        · rw [loadProject_congr (hrest d.name hdn)]
      show Except.ok (List.insertionSort projectLE
          (ds.filterMap (fun d =>
            if d.isDir then (loadProject pfs₁ d.name).toOption else none))) =
        Except.ok (List.insertionSort projectLE
          (ds.filterMap (fun d =>
            if d.isDir then (loadProject pfs₂ d.name).toOption else none)))
      rw [List.filterMap_congr hcongr]
  · intro pfs ps h p hp
    obtain ⟨dn, hload⟩ := (listProjects_ok h).2 p hp
    obtain ⟨idx, e, rest, -, -, hps, -⟩ := loadProject_ok hload
    rw [hps]
    exact List.cons_ne_nil e rest

/-- Witness for C8 on the concrete one-directory filesystems. -/
theorem emptyIndex_notFound_witness :
    pfsEmptyIdx.index "d" = .ok { Version := 1, Entries := [] } ∧
    loadProject pfsEmptyIdx "d" = .error .notExist ∧
    GetProject pfsEmptyIdx "d" = .error .notExist ∧
    ListProjects pfsMissing = ListProjects pfsEmptyIdx ∧
    ListProjects pfsEx = .ok [projEx] ∧ projEx.Sessions ≠ [] :=
  ⟨rfl,
   (emptyIndex_notFound.1 pfsEmptyIdx "d" { Version := 1, Entries := [] }
     rfl rfl).1,
   (emptyIndex_notFound.1 pfsEmptyIdx "d" { Version := 1, Entries := [] }
     rfl rfl).2,
   emptyIndex_notFound.2.1 pfsMissing pfsEmptyIdx "d" 1 rfl
     (fun d hd => by simp [pfsMissing, pfsEmptyIdx, hd]) rfl
     (by simp [pfsEmptyIdx]),
   rfl,
   emptyIndex_notFound.2.2 pfsEx [projEx] rfl projEx
     (by decide)⟩

/-! ## Active-task-list lemmas -/

/-- Inversion for a produced active entry: it comes from a task-bearing
session subdirectory, carries its task count, and is blank when both
context lookups fail. -/
theorem activeFor_some {tfs : TasksFS} {pfs : ProjectsFS} {e : TDirEnt}
    {a : ActiveTaskList} (h : activeFor tfs pfs e = some a) :
    e.isDir = true ∧ 0 < GetTaskCount tfs e.name ∧
    a.SessionID = e.name ∧ a.TaskCount = GetTaskCount tfs e.name ∧
    (sessionLookup pfs e.name = none →
      findProjectByJSONL pfs e.name = none →
      a.ProjectName = "" ∧ a.ProjectPath = "" ∧ a.Summary = "" ∧
        a.FirstPrompt = "") := by
  unfold activeFor at h
  by_cases hdir : e.isDir = true
  case neg => rw [if_neg hdir] at h; exact absurd h (by simp)
  rw [if_pos hdir] at h
  simp only [] at h
  by_cases hc : 0 < GetTaskCount tfs e.name
  case neg => rw [if_neg hc] at h; exact absurd h (by simp)
  rw [if_pos hc] at h
  refine ⟨hdir, hc, ?_⟩
  cases hsl : sessionLookup pfs e.name with
  | some pr =>
    rw [hsl] at h
    injection h with h
    refine ⟨by rw [← h], by rw [← h], ?_⟩
    intro h1 _
    exact absurd h1 (by simp)
  | none =>
    rw [hsl] at h
    cases hfj : findProjectByJSONL pfs e.name with
    | some pr =>
      rw [hfj] at h
      injection h with h
      refine ⟨by rw [← h], by rw [← h], ?_⟩
      intro _ h2
      exact absurd h2 (by simp)
    | none =>
      rw [hfj] at h
      injection h with h
      exact ⟨by rw [← h], by rw [← h],
        fun _ _ => ⟨by rw [← h], by rw [← h], by rw [← h], by rw [← h]⟩⟩

/-- A directory entry produces no active entry exactly when it is not a
task-bearing session subdirectory. -/
theorem activeFor_none {tfs : TasksFS} {pfs : ProjectsFS} {e : TDirEnt}
    (h : activeFor tfs pfs e = none) :
    e.isDir = false ∨ GetTaskCount tfs e.name = 0 := by
  unfold activeFor at h
  by_cases hdir : e.isDir = true
  · rw [if_pos hdir] at h
    simp only [] at h
    by_cases hc : 0 < GetTaskCount tfs e.name
    · rw [if_pos hc] at h; exact absurd h (by simp)
    · right; omega
  · left; exact (Bool.not_eq_true e.isDir) ▸ hdir

/-- Transport of per-session counting through the producing `filterMap`. -/
theorem countP_filterMap_active (tfs : TasksFS) (pfs : ProjectsFS)
    (n : String) :
    ∀ es : List TDirEnt,
      (es.filterMap (activeFor tfs pfs)).countP
          (fun a => a.SessionID == n) =
        es.countP (fun e =>
          (e.isDir && decide (0 < GetTaskCount tfs e.name)) &&
            (e.name == n)) := by
  intro es
  induction es with
  | nil => rfl
  | cons e es ih =>
    rw [List.filterMap_cons, List.countP_cons]
    cases ha : activeFor tfs pfs e with
    | none =>
      rcases activeFor_none ha with hdir | hzero
      · simp [hdir, ih]
      · simp [hzero, ih]
    | some a =>
      obtain ⟨hdir, hc, hsid, -, -⟩ := activeFor_some ha
      rw [List.countP_cons, ih, hsid, hdir]
      simp [hc]

/-- With pairwise-distinct entry names, counting entries matching a fixed
member's name reduces to testing that member. -/
theorem countP_nodup_name :
    ∀ es : List TDirEnt, (es.map TDirEnt.name).Nodup →
      ∀ e₀ ∈ es, ∀ p : TDirEnt → Bool,
        es.countP (fun e => p e && (e.name == e₀.name)) =
          if p e₀ then 1 else 0 := by
  intro es
  induction es with
  | nil => intro _ e₀ he; exact absurd he (by simp)
  | cons e es ih =>
    intro hnd e₀ he₀ p
    rw [List.map_cons] at hnd
    obtain ⟨hnin, hnd'⟩ := List.nodup_cons.mp hnd
    rw [List.countP_cons]
    rcases List.mem_cons.mp he₀ with rfl | he₀'
    · have htail : es.countP (fun x => p x && (x.name == e₀.name)) = 0 := by
        rw [List.countP_eq_zero]
        intro x hx
        have hne : x.name ≠ e₀.name := by
          intro heq
          exact hnin (heq ▸ List.mem_map_of_mem TDirEnt.name hx)
        simp [hne]
      rw [htail]
      cases hpe : p e₀ <;> simp [hpe]
    · have hne : e.name ≠ e₀.name := by
        intro heq
        exact hnin (heq ▸ List.mem_map_of_mem TDirEnt.name he₀')
      rw [ih hnd' e₀ he₀' p]
      simp [hne]

/-- If no parsed index of any listed project directory mentions a session
identifier, the session→project map lookup fails. -/
theorem sessionLookup_eq_none {pfs : ProjectsFS} {sid : String}
    (h : ∀ d ∈ dirsOf pfs, ∀ idx, pfs.index d.name = .ok idx →
      ∀ en ∈ idx.Entries, en.SessionID ≠ sid) :
    sessionLookup pfs sid = none := by
  unfold sessionLookup
  rw [Option.map_eq_none', List.find?_eq_none]
  intro pr hpr
  rw [List.mem_reverse] at hpr
  unfold sessionPairs at hpr
  obtain ⟨d, hd, hin⟩ := List.mem_flatMap.mp hpr
  match hidx : pfs.index d.name with
  | .readErr => rw [hidx] at hin; exact absurd hin (by simp)
  | .parseErr => rw [hidx] at hin; exact absurd hin (by simp)
  | .ok idx =>
    rw [hidx] at hin
    obtain ⟨en, hen, heq⟩ := List.mem_map.mp hin
    have hne : en.SessionID ≠ sid := h d hd idx hidx en hen
    have hpr1 : pr.1 = en.SessionID := by rw [← heq]
    simp [hpr1, hne]

/-- If no listed project directory holds the session's `.jsonl` file,
the fallback probe fails. -/
theorem findProjectByJSONL_eq_none {pfs : ProjectsFS} {sid : String}
    (h : ∀ d ∈ dirsOf pfs, (sid ++ ".jsonl") ∉ pfs.files d.name) :
    findProjectByJSONL pfs sid = none := by
  unfold findProjectByJSONL
  rw [Option.map_eq_none', List.find?_eq_none]
  intro d hd
  have := h d hd
  simpa using this

/-! ## Claim theorems: active task lists -/

/-- Claim C5: when the live-tasks directory lists distinct-named entries,
`ListActiveTaskLists` succeeds and yields exactly one entry (with
`TaskCount ≥ 1`) per session subdirectory holding at least one task
file, no entry for task-less subdirectories, and leaves the four
project-context fields blank — rather than failing — for a session that
appears neither in any project's parsed session index nor as a
per-session `.jsonl` log file in any project directory. -/
theorem listActiveTaskLists_spec (tfs : TasksFS) (pfs : ProjectsFS)
    (es : List TDirEnt) (hroot : tfs.root = some es)
    (hnodup : (es.map TDirEnt.name).Nodup) :
    ∃ out, ListActiveTaskLists tfs pfs = some out ∧
      (∀ a ∈ out, 1 ≤ a.TaskCount) ∧
      (∀ e ∈ es, e.isDir = true → 0 < GetTaskCount tfs e.name →
        out.countP (fun a => a.SessionID == e.name) = 1) ∧
      (∀ e ∈ es, e.isDir = true → GetTaskCount tfs e.name = 0 →
        out.countP (fun a => a.SessionID == e.name) = 0) ∧
      (∀ a ∈ out,
        (∀ d ∈ dirsOf pfs, ∀ idx, pfs.index d.name = .ok idx →
          ∀ en ∈ idx.Entries, en.SessionID ≠ a.SessionID) →
        (∀ d ∈ dirsOf pfs, (a.SessionID ++ ".jsonl") ∉ pfs.files d.name) →
        a.ProjectName = "" ∧ a.ProjectPath = "" ∧ a.Summary = "" ∧
          a.FirstPrompt = "") := by
  refine ⟨es.filterMap (activeFor tfs pfs), ?_, ?_, ?_, ?_, ?_⟩
  · unfold ListActiveTaskLists
    rw [hroot]
  · intro a ha
    obtain ⟨e, -, hfe⟩ := List.mem_filterMap.mp ha
    obtain ⟨-, hc, -, hcount, -⟩ := activeFor_some hfe
    omega
  · intro e he hdir hc
    rw [countP_filterMap_active tfs pfs e.name es,
      countP_nodup_name es hnodup e he]
    simp [hdir, hc]
  · intro e he hdir hc
    rw [countP_filterMap_active tfs pfs e.name es,
      countP_nodup_name es hnodup e he]
    simp [hc]
  · intro a ha hidx hjsonl
    obtain ⟨e, -, hfe⟩ := List.mem_filterMap.mp ha
    obtain ⟨-, -, hsid, -, hblank⟩ := activeFor_some hfe
    refine hblank ?_ ?_
    · exact sessionLookup_eq_none (hsid ▸ hidx)
    · exact findProjectByJSONL_eq_none (hsid ▸ hjsonl)

/-- Witness for C5: the example live-tasks directory against a projects
directory with no usable context; session `s1` has one task file,
session `s2` has none. -/
theorem listActiveTaskLists_spec_witness :
    tfsEx.root = some [{ name := "s1", isDir := true },
      { name := "s2", isDir := true }, { name := "nd", isDir := false }] ∧
    (([{ name := "s1", isDir := true }, { name := "s2", isDir := true },
      { name := "nd", isDir := false }] : List TDirEnt).map
        TDirEnt.name).Nodup ∧
    (∃ out, ListActiveTaskLists tfsEx pfsBlank = some out ∧
      (∀ a ∈ out, 1 ≤ a.TaskCount) ∧
      (∀ e ∈ ([{ name := "s1", isDir := true },
          { name := "s2", isDir := true },
          { name := "nd", isDir := false }] : List TDirEnt),
        e.isDir = true → 0 < GetTaskCount tfsEx e.name →
        out.countP (fun a => a.SessionID == e.name) = 1) ∧
      (∀ e ∈ ([{ name := "s1", isDir := true },
          { name := "s2", isDir := true },
          { name := "nd", isDir := false }] : List TDirEnt),
        e.isDir = true → GetTaskCount tfsEx e.name = 0 →
        out.countP (fun a => a.SessionID == e.name) = 0) ∧
      (∀ a ∈ out,
        (∀ d ∈ dirsOf pfsBlank, ∀ idx, pfsBlank.index d.name = .ok idx →
          ∀ en ∈ idx.Entries, en.SessionID ≠ a.SessionID) →
        (∀ d ∈ dirsOf pfsBlank,
          (a.SessionID ++ ".jsonl") ∉ pfsBlank.files d.name) →
        a.ProjectName = "" ∧ a.ProjectPath = "" ∧ a.Summary = "" ∧
          a.FirstPrompt = "")) :=
  ⟨rfl, by decide,
    listActiveTaskLists_spec tfsEx pfsBlank
      [{ name := "s1", isDir := true }, { name := "s2", isDir := true },
       { name := "nd", isDir := false }] rfl (by decide)⟩

/-! ## Grouping lemmas -/

/-- Folding a matching summary into a good entry keeps it good. -/
theorem goodKV_update {kv : String × ProjectGroup} {s : ProjectSummary}
    (hkey : kv.1 = groupKey s) (h : GoodKV kv) :
    GoodKV (kv.1, updateGroup kv.2 s) := by
  obtain ⟨hne, hmemkey, hcons, hsum, ⟨w, hw, hwe⟩, hbound⟩ := h
  refine ⟨by simp [updateGroup], ?_, ?_, ?_, ?_, ?_⟩
  · intro x hx
    simp only [updateGroup] at hx
    rcases List.mem_append.mp hx with hx | hx
    · exact hmemkey x hx
    · rw [List.mem_singleton.mp hx, hkey]
  · simpa [updateGroup] using hcons
  · simp only [updateGroup, List.map_append, List.sum_append]
    simp [hsum]
  · simp only [updateGroup]
    by_cases hlt : kv.2.LastModified < s.LastModified
    · refine ⟨s, by simp, ?_⟩
      rw [if_pos hlt]
    · refine ⟨w, by simp [hw], ?_⟩
      rw [if_neg hlt]
      exact hwe
  · intro x hx
    simp only [updateGroup] at hx ⊢
    rcases List.mem_append.mp hx with hx | hx
    · have := hbound x hx
      by_cases hlt : kv.2.LastModified < s.LastModified <;> simp [hlt] <;>
        omega
    · rw [List.mem_singleton.mp hx]
      by_cases hlt : kv.2.LastModified < s.LastModified <;> simp [hlt] <;>
        omega

/-- The fresh singleton entry is good. -/
theorem goodKV_new (s : ProjectSummary) :
    GoodKV (groupKey s, newGroup s) := by
  refine ⟨by simp [newGroup], ?_, by simp [newGroup, groupKey],
    by simp [newGroup], ⟨s, by simp [newGroup], by simp [newGroup]⟩, ?_⟩
  · intro x hx
    have hx' : x = s := by simpa [newGroup] using hx
    rw [hx']
  · intro x hx
    have hx' : x = s := by simpa [newGroup] using hx
    rw [hx']
    simp [newGroup]

/-- Inserting preserves goodness of every entry. -/
theorem goodKV_insert :
    ∀ (acc : List (String × ProjectGroup)) (s : ProjectSummary),
      (∀ kv ∈ acc, GoodKV kv) → ∀ kv ∈ insertGroup acc s, GoodKV kv := by
  intro acc
  induction acc with
  | nil =>
    intro s _ kv hkv
    rw [List.mem_singleton.mp hkv]
    exact goodKV_new s
  | cons kv₀ acc ih =>
    intro s hgood kv hkv
    by_cases hk : kv₀.1 = groupKey s
    · rw [insertGroup, if_pos hk] at hkv
      rcases List.mem_cons.mp hkv with rfl | hkv
      · exact goodKV_update hk (hgood kv₀ (List.mem_cons_self kv₀ acc))
      · exact hgood kv (List.mem_cons_of_mem kv₀ hkv)
    · rw [insertGroup, if_neg hk] at hkv
      rcases List.mem_cons.mp hkv with rfl | hkv
      · exact hgood kv (List.mem_cons_self kv acc)
      · exact ih s (fun x hx => hgood x (List.mem_cons_of_mem kv₀ hx))
          kv hkv

/-- Every entry of the accumulated group map is good. -/
theorem goodKV_groupMap (l : List ProjectSummary) :
    ∀ kv ∈ groupMapOf l, GoodKV kv := by
  have gen : ∀ (l : List ProjectSummary)
      (acc : List (String × ProjectGroup)),
      (∀ kv ∈ acc, GoodKV kv) →
      ∀ kv ∈ l.foldl insertGroup acc, GoodKV kv := by
    intro l
    induction l with
    | nil => intro acc h kv hkv; exact h kv hkv
    | cons s l ih =>
      intro acc h kv hkv
      exact ih (insertGroup acc s) (goodKV_insert acc s h) kv hkv
  exact gen l [] (by simp)

/-- A key present after insertion was present before or is the new key. -/
theorem keys_insert_sub :
    ∀ (acc : List (String × ProjectGroup)) (s : ProjectSummary)
      (k : String), k ∈ (insertGroup acc s).map Prod.fst →
      k ∈ acc.map Prod.fst ∨ k = groupKey s := by
  intro acc
  induction acc with
  | nil =>
    intro s k hk
    right
    simpa [insertGroup] using hk
  | cons kv₀ acc ih =>
    intro s k hk
    by_cases h : kv₀.1 = groupKey s
    · rw [insertGroup, if_pos h] at hk
      simp only [List.map_cons, List.mem_cons] at hk ⊢
      tauto
    · rw [insertGroup, if_neg h] at hk
      simp only [List.map_cons, List.mem_cons] at hk ⊢
      rcases hk with rfl | hk
      · tauto
      · rcases ih s k hk with h' | h' <;> tauto

/-- Insertion keeps the key list duplicate-free. -/
theorem keys_nodup_insert :
    ∀ (acc : List (String × ProjectGroup)) (s : ProjectSummary),
      (acc.map Prod.fst).Nodup →
      ((insertGroup acc s).map Prod.fst).Nodup := by
  intro acc
  induction acc with
  | nil => intro s _; simp [insertGroup]
  | cons kv₀ acc ih =>
    intro s hnd
    rw [List.map_cons] at hnd
    obtain ⟨hnin, hnd'⟩ := List.nodup_cons.mp hnd
    by_cases h : kv₀.1 = groupKey s
    · rw [insertGroup, if_pos h, List.map_cons]
      exact List.nodup_cons.mpr ⟨hnin, hnd'⟩
    · rw [insertGroup, if_neg h, List.map_cons]
      refine List.nodup_cons.mpr ⟨?_, ih s hnd'⟩
      intro hmem
      rcases keys_insert_sub acc s kv₀.1 hmem with h' | h'
      · exact hnin h'
      · exact h h'

/-- The accumulated group map has duplicate-free keys. -/
theorem keys_nodup_groupMap (l : List ProjectSummary) :
    ((groupMapOf l).map Prod.fst).Nodup := by
  have gen : ∀ (l : List ProjectSummary)
      (acc : List (String × ProjectGroup)),
      (acc.map Prod.fst).Nodup →
      ((l.foldl insertGroup acc).map Prod.fst).Nodup := by
    intro l
    induction l with
    | nil => intro acc h; exact h
    | cons s l ih =>
      intro acc h
      exact ih (insertGroup acc s) (keys_nodup_insert acc s h)
  exact gen l [] (by simp)

/-- Inserting one summary adds exactly it to the flattened members. -/
theorem flat_insert (acc : List (String × ProjectGroup))
    (s : ProjectSummary) :
    List.Perm ((insertGroup acc s).flatMap (fun kv => kv.2.Projects))
      ((acc.flatMap (fun kv => kv.2.Projects)) ++ [s]) := by
  induction acc with
  | nil => simp [insertGroup, newGroup]
  | cons kv₀ acc ih =>
    by_cases h : kv₀.1 = groupKey s
    · rw [insertGroup, if_pos h, List.flatMap_cons, List.flatMap_cons]
      simp only [updateGroup]
      rw [List.append_assoc, List.append_assoc]
      exact List.Perm.append_left kv₀.2.Projects List.perm_append_comm
    · rw [insertGroup, if_neg h, List.flatMap_cons, List.flatMap_cons,
        List.append_assoc]
      exact List.Perm.append_left kv₀.2.Projects ih

/-- The group map's flattened members are a permutation of the input. -/
theorem flat_groupMap (l : List ProjectSummary) :
    List.Perm ((groupMapOf l).flatMap (fun kv => kv.2.Projects)) l := by
  have gen : ∀ (l : List ProjectSummary)
      (acc : List (String × ProjectGroup)),
      List.Perm
        ((l.foldl insertGroup acc).flatMap (fun kv => kv.2.Projects))
        ((acc.flatMap (fun kv => kv.2.Projects)) ++ l) := by
    intro l
    induction l with
    | nil => intro acc; simp
    | cons s l ih =>
      intro acc
      refine (ih (insertGroup acc s)).trans ?_
      have h1 := List.Perm.append_right l (flat_insert acc s)
      refine h1.trans ?_
      rw [List.append_assoc]
      exact List.Perm.refl _
  simpa using gen l []

/-- Sorting members inside each group leaves the flattened members a
permutation of the unsorted flattening. -/
theorem flat_map_msort :
    ∀ m : List (String × ProjectGroup),
      List.Perm ((m.map msortKV).flatMap (fun g => g.Projects))
        (m.flatMap (fun kv => kv.2.Projects)) := by
  intro m
  induction m with
  | nil => simp
  | cons kv m ih =>
    rw [List.map_cons, List.flatMap_cons, List.flatMap_cons]
    exact List.Perm.append
      (List.perm_insertionSort summaryLE kv.2.Projects) ih

/-- Every output group is a member-sorted copy of a group-map entry. -/
theorem mem_groupProjects {l : List ProjectSummary} {g : ProjectGroup}
    (h : g ∈ groupProjects l) :
    ∃ kv ∈ groupMapOf l, g = msortKV kv := by
  unfold groupProjects at h
  have h' := (List.perm_insertionSort groupLE _).mem_iff.mp h
  obtain ⟨kv, hkv, heq⟩ := List.mem_map.mp h'
  exact ⟨kv, hkv, heq.symm⟩

/-! ## Claim theorems: project grouping -/

/-- Claim C6: `ListProjectGroups` partitions the summaries — the groups'
members are a permutation of the input (so each summary lies in exactly
one group), groups are non-empty with pairwise-distinct
(organization, base-repo) keys shared by all their members, each group's
`TotalSessions` is the sum of its members' session counts and its
`LastModified` the members' maximum, members are sorted non-increasing by
`LastModified`, and so are the groups. -/
theorem groupProjects_partition (l : List ProjectSummary) :
    List.Perm ((groupProjects l).flatMap (fun g => g.Projects)) l ∧
    (∀ g ∈ groupProjects l, g.Projects ≠ []) ∧
    (∀ g ∈ groupProjects l,
      g.TotalSessions = (g.Projects.map (fun s => s.SessionCount)).sum) ∧
    (∀ g ∈ groupProjects l,
      (∃ s ∈ g.Projects, g.LastModified = s.LastModified) ∧
      ∀ s ∈ g.Projects, s.LastModified ≤ g.LastModified) ∧
    (∀ g ∈ groupProjects l, ∀ s ∈ g.Projects,
      groupKey s = g.Org ++ "/" ++ g.BaseRepo) ∧
    ((groupProjects l).map (fun g => g.Org ++ "/" ++ g.BaseRepo)).Nodup ∧
    List.Pairwise groupLE (groupProjects l) ∧
    (∀ g ∈ groupProjects l, List.Pairwise summaryLE g.Projects) ∧
    (∀ pfs gs, ListProjectGroups pfs = .ok gs →
      ∃ ss, ListProjectSummaries pfs = .ok ss ∧ gs = groupProjects ss) := by
  have hmemfacts : ∀ g ∈ groupProjects l,
      ∃ kv ∈ groupMapOf l, g = msortKV kv :=
    fun g hg => mem_groupProjects hg
  refine ⟨?_, ?_, ?_, ?_, ?_, ?_, ?_, ?_, ?_⟩
  · exact (List.Perm.flatMap_right (fun g => g.Projects)
      (List.perm_insertionSort groupLE _)).trans
      ((flat_map_msort (groupMapOf l)).trans (flat_groupMap l))
  · intro g hg
    obtain ⟨kv, hkv, rfl⟩ := hmemfacts g hg
    obtain ⟨hne, -⟩ := goodKV_groupMap l kv hkv
    intro hempty
    simp only [msortKV] at hempty
    apply hne
    have hperm := List.perm_insertionSort summaryLE kv.2.Projects
    rw [hempty] at hperm
    exact hperm.symm.eq_nil
  · intro g hg
    obtain ⟨kv, hkv, rfl⟩ := hmemfacts g hg
    obtain ⟨-, -, -, hsum, -⟩ := goodKV_groupMap l kv hkv
    simp only [msortKV]
    rw [hsum]
    exact ((List.Perm.map (fun s => s.SessionCount)
      (List.perm_insertionSort summaryLE kv.2.Projects)).sum_eq).symm
  · intro g hg
    obtain ⟨kv, hkv, rfl⟩ := hmemfacts g hg
    obtain ⟨-, -, -, -, ⟨w, hw, hwe⟩, hbound⟩ := goodKV_groupMap l kv hkv
    constructor
    · exact ⟨w,
        (List.perm_insertionSort summaryLE kv.2.Projects).mem_iff.mpr hw,
        hwe⟩
    · intro s hs
      exact hbound s
        ((List.perm_insertionSort summaryLE kv.2.Projects).mem_iff.mp hs)
  · intro g hg s hs
    obtain ⟨kv, hkv, rfl⟩ := hmemfacts g hg
    obtain ⟨-, hmemkey, hcons, -⟩ := goodKV_groupMap l kv hkv
    have hs' :=
      (List.perm_insertionSort summaryLE kv.2.Projects).mem_iff.mp hs
    rw [hmemkey s hs', hcons]
    rfl
  · have hperm :
        List.Perm
          ((groupProjects l).map (fun g => g.Org ++ "/" ++ g.BaseRepo))
          (((groupMapOf l).map msortKV).map
            (fun g => g.Org ++ "/" ++ g.BaseRepo)) :=
      List.Perm.map _ (List.perm_insertionSort groupLE _)
    have heq :
        ((groupMapOf l).map msortKV).map
          (fun g => g.Org ++ "/" ++ g.BaseRepo) =
        (groupMapOf l).map Prod.fst := by
      rw [List.map_map]
      refine List.map_congr_left ?_
      intro kv hkv
      obtain ⟨-, -, hcons, -⟩ := goodKV_groupMap l kv hkv
      simp only [Function.comp]
      exact hcons.symm
    rw [hperm.nodup_iff, heq]
    exact keys_nodup_groupMap l
  · exact List.sorted_insertionSort groupLE _
  · intro g hg
    obtain ⟨kv, hkv, rfl⟩ := hmemfacts g hg
    exact List.sorted_insertionSort summaryLE kv.2.Projects
  · intro pfs gs h
    unfold ListProjectGroups at h
    match hss : ListProjectSummaries pfs with
    | .error er => rw [hss] at h; exact absurd h (by simp [Except.map])
    | .ok ss =>
      rw [hss] at h
      simp only [Except.map, Except.ok.injEq] at h
      exact ⟨ss, rfl, h.symm⟩

/-- Witness for C6: the three-project input groups into two groups, the
flattened members are a permutation of the input, and the newest-first
`o/repo` group aggregates 3 sessions with `LastModified = 7`. -/
theorem groupProjects_partition_witness :
    groupProjects demoGroupIn =
      [{ BaseRepo := "repo", Org := "o",
         Projects := [{ mkSummary "repo-wt" "o" with
             BaseRepo := "repo", SessionCount := 1, LastModified := 7 },
           { mkSummary "repo" "o" with
             BaseRepo := "repo", SessionCount := 2, LastModified := 3 }],
         TotalSessions := 3, LastModified := 7 },
       { BaseRepo := "lib", Org := "p",
         Projects := [{ mkSummary "lib" "p" with
             BaseRepo := "lib", SessionCount := 4, LastModified := 5 }],
         TotalSessions := 4, LastModified := 5 }] ∧
    List.Perm ((groupProjects demoGroupIn).flatMap (fun g => g.Projects))
      demoGroupIn ∧
    ({ BaseRepo := "repo", Org := "o",
       Projects := [{ mkSummary "repo-wt" "o" with
           BaseRepo := "repo", SessionCount := 1, LastModified := 7 },
         { mkSummary "repo" "o" with
           BaseRepo := "repo", SessionCount := 2, LastModified := 3 }],
       TotalSessions := 3, LastModified := 7 } : ProjectGroup) ∈
      groupProjects demoGroupIn ∧
    ({ BaseRepo := "repo", Org := "o",
       Projects := [{ mkSummary "repo-wt" "o" with
           BaseRepo := "repo", SessionCount := 1, LastModified := 7 },
         { mkSummary "repo" "o" with
           BaseRepo := "repo", SessionCount := 2, LastModified := 3 }],
       TotalSessions := 3, LastModified := 7 } : ProjectGroup).TotalSessions =
      (({ BaseRepo := "repo", Org := "o",
          Projects := [{ mkSummary "repo-wt" "o" with
              BaseRepo := "repo", SessionCount := 1, LastModified := 7 },
            { mkSummary "repo" "o" with
              BaseRepo := "repo", SessionCount := 2, LastModified := 3 }],
          TotalSessions := 3, LastModified := 7 } : ProjectGroup).Projects.map
        (fun s => s.SessionCount)).sum :=
  ⟨by decide, (groupProjects_partition demoGroupIn).1, by decide,
    (groupProjects_partition demoGroupIn).2.2.1
      { BaseRepo := "repo", Org := "o",
        Projects := [{ mkSummary "repo-wt" "o" with
            BaseRepo := "repo", SessionCount := 1, LastModified := 7 },
          { mkSummary "repo" "o" with
            BaseRepo := "repo", SessionCount := 2, LastModified := 3 }],
        TotalSessions := 3, LastModified := 7 } (by decide)⟩

end TaskViewer
